import Mathlib

/-!
Shallow embedding of the animation-compositing core of the
ComfyUI-AE-Animation editor (files `js/timeline.js` and the
`BackgroundExtractor` module), together with proofs about the keyframe
interpolation engine, the keyframe store, the forward/inverse transform
pipeline, the background draw modes, the region-extraction / inpainting
engine, and the mask edge jitter.

Numeric modelling conventions:
* rational numbers (`ℚ`) stand for JS numbers wherever the source code
  only adds, multiplies, divides and compares;
* real numbers (`ℝ`) are used where the source calls `Math.sqrt`,
  `Math.cos` or `Math.sin`;
* `round` on `ℝ`/`ℚ` (i.e. `⌊x + 1/2⌋`) models JS `Math.round`, which
  rounds half-way cases toward positive infinity exactly like `round`;
* pixel buffers (`ImageData`) are modelled as total functions from
  integer coordinates to RGBA quadruples with integer channels; loops
  over pixel offsets become sums/folds over the same index ranges.
-/

set_option maxRecDepth 10000

namespace AETimeline

/-- A keyframe sample `{time, value}` as stored in `layer.keyframes[prop]`. -/
structure Sample where
  time : ℚ
  value : ℚ
deriving DecidableEq, Repr

/-- Comparator order used by `frames.sort((a, b) => a.time - b.time)`. -/
def leTime (a b : Sample) : Prop := a.time ≤ b.time

/-- Strict version of `leTime`; `Pairwise ltTime` is the
"strictly time-ascending, no duplicate times" track invariant. -/
def ltTime (a b : Sample) : Prop := a.time < b.time

instance : DecidableRel leTime := fun a b => inferInstanceAs (Decidable (a.time ≤ b.time))

instance : DecidableRel ltTime := fun a b => inferInstanceAs (Decidable (a.time < b.time))

instance : IsTotal Sample leTime := ⟨fun a b => le_total a.time b.time⟩

instance : IsTrans Sample leTime := ⟨fun _ _ _ h h' => le_trans h h'⟩

/-- `array.sort((a, b) => a.time - b.time)`: a stable comparison sort by time. -/
def sortByTime (fs : List Sample) : List Sample := List.insertionSort leTime fs

/-- The interpolation between two bracketing samples in
`AeTimelineView.#applyTime`:
`t = (time - a.time) / (b.time - a.time || 1); a.value + (b.value - a.value) * t`.
The JS `|| 1` replaces a zero denominator by `1`. -/
def lerpSample (a b : Sample) (t : ℚ) : ℚ :=
  a.value + (b.value - a.value) *
    ((t - a.time) / (if b.time - a.time = 0 then 1 else b.time - a.time))

/-- The bracketing loop of `#applyTime`: scan adjacent pairs and use the
first pair `(a, b)` with `a.time ≤ t ≤ b.time`; `none` when no pair matches
(the source then leaves the property value unchanged). -/
def bracketVal : List Sample → ℚ → Option ℚ
  | a :: b :: rest, t =>
    if a.time ≤ t ∧ t ≤ b.time then some (lerpSample a b t)
    else bracketVal (b :: rest) t
  | _, _ => none

/-- Track evaluation of `#applyTime` on an already sorted frame list:
flat extrapolation below the first and above the last sample, otherwise
the bracket loop. -/
def evalSorted : List Sample → ℚ → Option ℚ
  | [], _ => none
  | f :: rest, t =>
    if t ≤ f.time then some f.value
    else if ((f :: rest).getLast (List.cons_ne_nil f rest)).time ≤ t then
      some (((f :: rest).getLast (List.cons_ne_nil f rest)).value)
    else bracketVal (f :: rest) t

/-- One property track step of `AeTimelineView.#applyTime`: the source
first copies and sorts the frames, then evaluates. `none` models "the
property keeps its previous value" (empty track, or no branch fired). -/
def evalTrack (fs : List Sample) (t : ℚ) : Option ℚ :=
  evalSorted (sortByTime fs) t

/-- The scenario track `x : {0 → -100, 2 → 100}`. -/
def exTrackX : List Sample := [⟨0, -100⟩, ⟨2, 100⟩]

theorem sorted_leTime_of_pairwise_ltTime {fs : List Sample} (h : fs.Pairwise ltTime) :
    List.Sorted leTime fs :=
  h.imp (fun hab => le_of_lt hab)

theorem sortByTime_eq_self {fs : List Sample} (h : fs.Pairwise ltTime) :
    sortByTime fs = fs :=
  (sorted_leTime_of_pairwise_ltTime h).insertionSort_eq

theorem lerpSample_left (a b : Sample) : lerpSample a b a.time = a.value := by
  simp [lerpSample]

theorem lerpSample_right {a b : Sample} (hab : a.time ≠ b.time) :
    lerpSample a b b.time = b.value := by
  have hd : b.time - a.time ≠ 0 := sub_ne_zero.mpr (Ne.symm hab)
  rw [lerpSample, if_neg hd, div_self hd]
  ring

theorem bracketVal_bracket :
    ∀ (fs : List Sample), fs.Pairwise ltTime →
      ∀ (t : ℚ) (i : ℕ) (h : i + 1 < fs.length),
        (fs.get ⟨i, Nat.lt_of_succ_lt h⟩).time ≤ t → t ≤ (fs.get ⟨i + 1, h⟩).time →
        bracketVal fs t =
          some (lerpSample (fs.get ⟨i, Nat.lt_of_succ_lt h⟩) (fs.get ⟨i + 1, h⟩) t) := by
  intro fs
  induction fs with
  | nil => intro _ t i h; simp at h
  | cons a fs ih =>
    cases fs with
    | nil =>
      intro _ t i h
      simp at h
    | cons b rest =>
      intro hp t i h h1 h2
      have hstep : bracketVal (a :: b :: rest) t =
          if a.time ≤ t ∧ t ≤ b.time then some (lerpSample a b t)
          else bracketVal (b :: rest) t := rfl
      match i with
      | 0 =>
        rw [hstep, if_pos ⟨h1, h2⟩]
        rfl
      | Nat.succ k =>
        have hk1 : k + 1 < (b :: rest).length := Nat.succ_lt_succ_iff.mp h
        have hk : k < (b :: rest).length := Nat.lt_of_succ_lt hk1
        have h1' : ((b :: rest).get ⟨k, hk⟩).time ≤ t := h1
        have h2' : t ≤ ((b :: rest).get ⟨k + 1, hk1⟩).time := h2
        by_cases hc : a.time ≤ t ∧ t ≤ b.time
        · -- the loop fires on the first pair already; this forces `t = b.time`
          -- and `k = 0`, and both pairs interpolate to `b.value` there.
          have hpair := List.pairwise_iff_get.mp hp.of_cons
          have hble : b.time ≤ ((b :: rest).get ⟨k, hk⟩).time := by
            rcases Nat.eq_zero_or_pos k with hk0 | hkpos
            · subst hk0; exact le_refl _
            · exact le_of_lt (hpair ⟨0, Nat.lt_of_lt_of_le hkpos (Nat.le_of_lt hk)⟩
                ⟨k, hk⟩ (Fin.mk_lt_mk.mpr hkpos))
          have hbt : t = b.time := le_antisymm hc.2 (le_trans hble h1')
          have hk0 : k = 0 := by
            by_contra hk0
            have hkpos : 0 < k := Nat.pos_of_ne_zero hk0
            have hlt := hpair ⟨0, Nat.lt_of_lt_of_le hkpos (Nat.le_of_lt hk)⟩
              ⟨k, hk⟩ (Fin.mk_lt_mk.mpr hkpos)
            exact absurd (lt_of_lt_of_le hlt (hbt ▸ h1')) (lt_irrefl _)
          subst hk0
          have hab : a.time ≠ b.time :=
            ne_of_lt (List.rel_of_pairwise_cons hp (List.mem_cons_self b rest))
          show bracketVal (a :: b :: rest) t =
            some (lerpSample b ((b :: rest).get ⟨1, hk1⟩) t)
          rw [hstep, if_pos hc, hbt, lerpSample_right hab, lerpSample_left]
        · rw [hstep, if_neg hc]
          exact ih hp.of_cons t k hk1 h1' h2'

theorem evalTrack_le_head (fs : List Sample) (hp : fs.Pairwise ltTime) (hne : fs ≠ [])
    (t : ℚ) (h : t ≤ (fs.head hne).time) :
    evalTrack fs t = some (fs.head hne).value := by
  rw [evalTrack, sortByTime_eq_self hp]
  cases fs with
  | nil => exact absurd rfl hne
  | cons f rest => simp [evalSorted, if_pos (show t ≤ f.time from h)]

theorem evalTrack_ge_last (fs : List Sample) (hp : fs.Pairwise ltTime) (hne : fs ≠ [])
    (t : ℚ) (h : (fs.getLast hne).time ≤ t) :
    evalTrack fs t = some (fs.getLast hne).value := by
  rw [evalTrack, sortByTime_eq_self hp]
  cases fs with
  | nil => exact absurd rfl hne
  | cons f rest =>
    by_cases hth : t ≤ f.time
    · -- then head time = last time and, by strict sortedness, head = last
      have hmem := List.getLast_mem (List.cons_ne_nil f rest)
      have hfl : f.time ≤ ((f :: rest).getLast (List.cons_ne_nil f rest)).time := by
        rcases List.mem_cons.mp hmem with he | hm'
        · simp [he]
        · exact le_of_lt (show f.time < _ from List.rel_of_pairwise_cons hp hm')
      have heq : ((f :: rest).getLast (List.cons_ne_nil f rest)).time = f.time :=
        le_antisymm (le_trans h hth) hfl
      have hlv : ((f :: rest).getLast (List.cons_ne_nil f rest)).value = f.value := by
        rcases List.mem_cons.mp hmem with he | hm'
        · rw [he]
        · have hlt : f.time < ((f :: rest).getLast (List.cons_ne_nil f rest)).time :=
            List.rel_of_pairwise_cons hp hm'
          rw [heq] at hlt
          exact absurd hlt (lt_irrefl _)
      simp only [evalSorted, if_pos hth]
      rw [hlv]
    · simp only [evalSorted, if_neg hth, if_pos h]

theorem evalTrack_bracket (fs : List Sample) (hp : fs.Pairwise ltTime) (hne : fs ≠ [])
    (t : ℚ) (hhead : (fs.head hne).time < t) (hlast : t < (fs.getLast hne).time)
    (i : ℕ) (h : i + 1 < fs.length)
    (h1 : (fs.get ⟨i, Nat.lt_of_succ_lt h⟩).time ≤ t)
    (h2 : t ≤ (fs.get ⟨i + 1, h⟩).time) :
    evalTrack fs t =
      some (lerpSample (fs.get ⟨i, Nat.lt_of_succ_lt h⟩) (fs.get ⟨i + 1, h⟩) t) := by
  rw [evalTrack, sortByTime_eq_self hp]
  cases fs with
  | nil => exact absurd rfl hne
  | cons f rest =>
    have hth : ¬ t ≤ f.time := not_le.mpr hhead
    have hlt : ¬ ((f :: rest).getLast (List.cons_ne_nil f rest)).time ≤ t :=
      not_le.mpr hlast
    simp only [evalSorted, if_neg hth, if_neg hlt]
    exact bracketVal_bracket (f :: rest) hp t i h h1 h2

/-- C1. For every non-empty, strictly time-ascending keyframe track,
`#applyTime` evaluation yields: the first sample's value at or below the
first time; the last sample's value at or above the last time; and for a
bracketing adjacent pair `(a, b)` strictly inside the track, the value
`a.value + (b.value - a.value) * (t - a.time) / max (b.time - a.time) ε`
for any guard `0 < ε ≤ b.time - a.time`.  Concretely, on the track
`x : {0 → -100, 2 → 100}`, evaluation at `t = 1` is `0` and at `t = 3`
is `100`. -/
theorem c1_interpolation_clamped_lerp (fs : List Sample) (hp : fs.Pairwise ltTime)
    (hne : fs ≠ []) (t ε : ℚ) (hε : 0 < ε) :
    (t ≤ (fs.head hne).time → evalTrack fs t = some (fs.head hne).value) ∧
    ((fs.getLast hne).time ≤ t → evalTrack fs t = some (fs.getLast hne).value) ∧
    (∀ (i : ℕ) (h : i + 1 < fs.length),
      (fs.head hne).time < t → t < (fs.getLast hne).time →
      (fs.get ⟨i, Nat.lt_of_succ_lt h⟩).time ≤ t → t ≤ (fs.get ⟨i + 1, h⟩).time →
      ε ≤ (fs.get ⟨i + 1, h⟩).time - (fs.get ⟨i, Nat.lt_of_succ_lt h⟩).time →
      evalTrack fs t = some ((fs.get ⟨i, Nat.lt_of_succ_lt h⟩).value +
        ((fs.get ⟨i + 1, h⟩).value - (fs.get ⟨i, Nat.lt_of_succ_lt h⟩).value) *
          (t - (fs.get ⟨i, Nat.lt_of_succ_lt h⟩).time) /
          max ((fs.get ⟨i + 1, h⟩).time - (fs.get ⟨i, Nat.lt_of_succ_lt h⟩).time) ε)) ∧
    evalTrack exTrackX 1 = some 0 ∧ evalTrack exTrackX 3 = some 100 := by
  refine ⟨evalTrack_le_head fs hp hne t, evalTrack_ge_last fs hp hne t, ?_,
    by norm_num [evalTrack, sortByTime, evalSorted, bracketVal, lerpSample, exTrackX,
      List.insertionSort, List.orderedInsert, leTime],
    by norm_num [evalTrack, sortByTime, evalSorted, bracketVal, lerpSample, exTrackX,
      List.insertionSort, List.orderedInsert, leTime]⟩
  intro i h hhead hlast h1 h2 hεd
  rw [evalTrack_bracket fs hp hne t hhead hlast i h h1 h2]
  have hd : 0 < (fs.get ⟨i + 1, h⟩).time - (fs.get ⟨i, Nat.lt_of_succ_lt h⟩).time := by
    have := List.pairwise_iff_get.mp hp ⟨i, Nat.lt_of_succ_lt h⟩ ⟨i + 1, h⟩
      (Fin.mk_lt_mk.mpr (Nat.lt_succ_self i))
    exact sub_pos.mpr this
  rw [lerpSample, if_neg (ne_of_gt hd), max_eq_left hεd, mul_div_assoc]

/-- Witness for C1: the theorem instantiated on the scenario track
`x : {0 → -100, 2 → 100}` with guard `ε = 1/100`, discharging every
hypothesis: flat clamping below the first and above the last sample, and
the linear midpoint via the bracketing pair `(0, -100), (2, 100)`. -/
theorem c1_interpolation_clamped_lerp_witness :
    evalTrack exTrackX (-1) = some (-100) ∧
    evalTrack exTrackX 3 = some 100 ∧
    evalTrack exTrackX 1 =
      some (-100 + (100 - -100) * (1 - 0) / max (2 - 0) (1/100 : ℚ)) := by
  have hpx : exTrackX.Pairwise ltTime := by
    norm_num [exTrackX, ltTime, List.pairwise_cons]
  have hnx : exTrackX ≠ [] := by simp [exTrackX]
  obtain ⟨hh, _, _, _, _⟩ :=
    c1_interpolation_clamped_lerp exTrackX hpx hnx (-1) (1/100) (by norm_num)
  obtain ⟨_, _, hb1, _, _⟩ :=
    c1_interpolation_clamped_lerp exTrackX hpx hnx 1 (1/100) (by norm_num)
  obtain ⟨_, hl, _, _, _⟩ :=
    c1_interpolation_clamped_lerp exTrackX hpx hnx 3 (1/100) (by norm_num)
  exact ⟨hh (by norm_num : (-1 : ℚ) ≤ 0), hl (by norm_num : (2 : ℚ) ≤ 3),
    hb1 0 (by norm_num [exTrackX]) (by norm_num : (0 : ℚ) < 1) (by norm_num : (1 : ℚ) < 2)
      (by norm_num : (0 : ℚ) ≤ 1) (by norm_num : (1 : ℚ) ≤ 2)
      (by norm_num : (1/100 : ℚ) ≤ 2 - 0)⟩

/-! ## Keyframe store operations (`#addKeyframe`, `#deleteKeyframe`,
`#onTimelineMove`) -/

/-- JS `time.toFixed(2)` equality: two times compare equal in
`kf.time.toFixed(2) !== currentTime.toFixed(2)` exactly when they round
to the same value at 2 decimals. -/
def round2 (t : ℚ) : ℤ := round (100 * t)

/-- One property track of `AeTimelineView.#addKeyframe`: drop every sample
whose 2-decimal rounding matches the current time, push the new sample,
re-sort by time. -/
def addTrack (fs : List Sample) (t v : ℚ) : List Sample :=
  sortByTime ((fs.filter fun kf => round2 kf.time ≠ round2 t) ++ [⟨t, v⟩])

/-- One property track of `AeTimelineView.#deleteKeyframe`: drop every
sample whose 2-decimal rounding matches the current time. -/
def removeTrack (fs : List Sample) (t : ℚ) : List Sample :=
  fs.filter fun kf => round2 kf.time ≠ round2 t

/-- `AeTimelineView.#onTimelineMove` while dragging a keyframe: overwrite
the dragged sample's time in place, then re-sort the track. -/
def dragTrack (fs : List Sample) (i : Fin fs.length) (newTime : ℚ) : List Sample :=
  sortByTime (fs.set i ⟨newTime, (fs.get i).value⟩)

/-- The list of animatable properties (`KF_PROPS` in `timeline.js`). -/
def KF_PROPS : List String :=
  ["x", "y", "scale_x", "scale_y", "rotation", "opacity", "mask_size", "flip_h", "flip_v"]

/-- The keyframe-related state of a layer: per property a track, plus the
property's current (displayed) value `layer[prop]`. -/
structure AnimLayer where
  keyframes : String → List Sample
  current : String → ℚ

/-- `AeTimelineView.#addKeyframe`: for every property in `KF_PROPS`,
replace any sample at the (rounded) current time by a sample carrying the
property's current value. -/
def addKeyframeAll (L : AnimLayer) (t : ℚ) : AnimLayer :=
  { L with
    keyframes := fun p =>
      if p ∈ KF_PROPS then addTrack (L.keyframes p) t (L.current p) else L.keyframes p }

theorem pairwise_ltTime_of_sorted_ne {fs : List Sample}
    (hs : List.Sorted leTime fs) (hne : fs.Pairwise fun a b => a.time ≠ b.time) :
    fs.Pairwise ltTime :=
  (hs.and hne).imp fun hab => lt_of_le_of_ne hab.1 hab.2

theorem pairwise_ne_of_pairwise_ltTime {fs : List Sample}
    (hp : fs.Pairwise ltTime) : fs.Pairwise fun a b => a.time ≠ b.time :=
  hp.imp fun hab => ne_of_lt hab

/-- `#addKeyframe` preserves the strict-ascending / no-duplicate invariant. -/
theorem addTrack_pairwise {fs : List Sample} (hp : fs.Pairwise ltTime) (t v : ℚ) :
    (addTrack fs t v).Pairwise ltTime := by
  have hfilter : (fs.filter fun kf => round2 kf.time ≠ round2 t).Pairwise ltTime :=
    hp.filter _
  have happend :
      ((fs.filter fun kf => round2 kf.time ≠ round2 t) ++ [(⟨t, v⟩ : Sample)]).Pairwise
        fun a b => a.time ≠ b.time := by
    rw [List.pairwise_append]
    refine ⟨pairwise_ne_of_pairwise_ltTime hfilter, List.pairwise_singleton _ _, ?_⟩
    intro a ha b hb
    have hb' : b = (⟨t, v⟩ : Sample) := List.mem_singleton.mp hb
    subst hb'
    have ha' := (List.mem_filter.mp ha).2
    intro htime
    have : round2 a.time = round2 t := by rw [htime]
    simp [this] at ha'
  have hsorted : List.Sorted leTime (addTrack fs t v) :=
    List.sorted_insertionSort leTime _
  have hperm : List.Perm (addTrack fs t v)
      ((fs.filter fun kf => round2 kf.time ≠ round2 t) ++ [(⟨t, v⟩ : Sample)]) :=
    List.perm_insertionSort leTime _
  have hne : (addTrack fs t v).Pairwise fun a b => a.time ≠ b.time :=
    (hperm.pairwise_iff fun h => h.symm).mpr happend
  exact pairwise_ltTime_of_sorted_ne hsorted hne

/-- `#deleteKeyframe` preserves the strict-ascending / no-duplicate invariant. -/
theorem removeTrack_pairwise {fs : List Sample} (hp : fs.Pairwise ltTime) (t : ℚ) :
    (removeTrack fs t).Pairwise ltTime :=
  hp.filter _

/-- `#onTimelineMove` re-sorts the track: the result is ascending by time,
but only non-strictly. -/
theorem dragTrack_sorted (fs : List Sample) (i : Fin fs.length) (newTime : ℚ) :
    List.Sorted leTime (dragTrack fs i newTime) :=
  List.sorted_insertionSort leTime _

/-- C6 (amended). Keyframe insertion (`#addKeyframe`, which replaces any
sample whose 2-decimal rounded time matches) and removal
(`#deleteKeyframe`) preserve the strictly-ascending / no-duplicate-times
track invariant; dragging a keyframe (`#onTimelineMove`) re-sorts the
track ascending by time, but only non-strictly — it does not restore
strictness when the drag target time collides with another sample. -/
theorem c6_track_invariant (fs : List Sample) (hp : fs.Pairwise ltTime) (t v nt : ℚ)
    (i : Fin fs.length) :
    (addTrack fs t v).Pairwise ltTime ∧
    (removeTrack fs t).Pairwise ltTime ∧
    List.Sorted leTime (dragTrack fs i nt) :=
  ⟨addTrack_pairwise hp t v, removeTrack_pairwise hp t, dragTrack_sorted fs i nt⟩

/-- Witness for C6: the amended invariant instantiated on the concrete
track `{0 → 10, 1 → 20}`. -/
theorem c6_track_invariant_witness :
    (addTrack [⟨0, 10⟩, ⟨1, 20⟩] (1/2) 5).Pairwise ltTime ∧
    (removeTrack [⟨0, 10⟩, ⟨1, 20⟩] (1/2)).Pairwise ltTime ∧
    List.Sorted leTime (dragTrack [⟨0, 10⟩, ⟨1, 20⟩] ⟨0, by norm_num⟩ (3/2)) := by
  have hp : ([⟨0, 10⟩, ⟨1, 20⟩] : List Sample).Pairwise ltTime := by
    norm_num [List.pairwise_cons, ltTime]
  exact c6_track_invariant [⟨0, 10⟩, ⟨1, 20⟩] hp (1/2) 5 (3/2) ⟨0, by norm_num⟩

/-- Counterexample for C6 as stated: dragging the keyframe at index 0 of
the track `{0 → 10, 1 → 20}` to time `1` — exactly the other sample's
time — leaves two samples at time `1`, so the re-sorted track violates
the strictly-ascending / no-duplicate-times invariant. -/
theorem c6_drag_duplicate_counterexample :
    ¬ (dragTrack [⟨0, 10⟩, ⟨1, 20⟩] ⟨0, by norm_num⟩ 1).Pairwise ltTime := by
  have hev : dragTrack [⟨0, 10⟩, ⟨1, 20⟩] ⟨0, by norm_num⟩ 1 =
      [⟨1, 10⟩, ⟨1, 20⟩] := by
    norm_num [dragTrack, sortByTime, List.insertionSort, List.orderedInsert, leTime,
      List.set]
  rw [hev]
  norm_num [List.pairwise_cons, ltTime]

/-- C10. `#addKeyframe` writes, for each of the nine animatable properties
in `KF_PROPS`, exactly one sample whose rounded time matches the current
time, and that sample carries the property's current value `layer[prop]`. -/
theorem c10_add_keyframe_all_props (L : AnimLayer) (t : ℚ) (p : String)
    (hP : p ∈ KF_PROPS) :
    (((addKeyframeAll L t).keyframes p).countP
      fun kf => decide (round2 kf.time = round2 t)) = 1 ∧
    (⟨t, L.current p⟩ : Sample) ∈ (addKeyframeAll L t).keyframes p ∧
    (addKeyframeAll L t).current p = L.current p := by
  refine ⟨?_, ?_, rfl⟩
  · simp only [addKeyframeAll, if_pos hP]
    rw [addTrack, sortByTime, (List.perm_insertionSort leTime _).countP_eq,
      List.countP_append]
    have hzero : ((L.keyframes p).filter fun kf => round2 kf.time ≠ round2 t).countP
        (fun kf => decide (round2 kf.time = round2 t)) = 0 := by
      rw [List.countP_eq_zero]
      intro a ha
      have := (List.mem_filter.mp ha).2
      simpa using this
    rw [hzero]
    simp
  · simp only [addKeyframeAll, if_pos hP, addTrack, sortByTime]
    rw [List.mem_insertionSort]
    exact List.mem_append_right _ (List.mem_singleton.mpr rfl)

/-- Witness for C10: adding a keyframe at time `1/3` on a layer whose
current `rotation` is `7` puts exactly one sample at that rounded time in
the `rotation` track, carrying value `7`. -/
theorem c10_add_keyframe_all_props_witness :
    ((((addKeyframeAll ⟨fun _ => [], fun _ => 7⟩ (1/3)).keyframes "rotation").countP
      fun kf => decide (round2 kf.time = round2 (1/3))) = 1) ∧
    (⟨1/3, 7⟩ : Sample) ∈ (addKeyframeAll ⟨fun _ => [], fun _ => 7⟩ (1/3)).keyframes
      "rotation" ∧
    (addKeyframeAll ⟨fun _ => [], fun _ => 7⟩ (1/3)).current "rotation" = 7 :=
  c10_add_keyframe_all_props ⟨fun _ => [], fun _ => 7⟩ (1/3) "rotation"
    (by simp [KF_PROPS])

/-! ## Transform pipeline (`#render` forward chain, `#canvasToLayerCoords`
inverse, `#onCanvasWheel` scale clamp) -/

/-- The transform snapshot of a foreground layer, together with its raster
size, as read by `#render` and `#canvasToLayerCoords`. -/
structure XfLayer where
  x : ℝ
  y : ℝ
  scale_x : ℝ
  scale_y : ℝ
  rotation : ℝ
  flip_h : ℝ
  flip_v : ℝ
  imgW : ℝ
  imgH : ℝ

/-- JS `(s || 1)`: a scale of exactly `0` (falsy) is replaced by `1`;
every other value is used unchanged. -/
noncomputable def effScale (s : ℝ) : ℝ := if s = 0 then 1 else s

/-- `const sx = (layer.scale_x || 1) * (layer.flip_h > 0.5 ? -1 : 1)`. -/
noncomputable def layerSX (L : XfLayer) : ℝ :=
  effScale L.scale_x * (if L.flip_h > 1/2 then -1 else 1)

/-- `const sy = (layer.scale_y || 1) * (layer.flip_v > 0.5 ? -1 : 1)`. -/
noncomputable def layerSY (L : XfLayer) : ℝ :=
  effScale L.scale_y * (if L.flip_v > 1/2 then -1 else 1)

/-- The forward chain of `#render` for a foreground layer applied to a
layer-local raster coordinate: `translate(W/2 + x, H/2 + y)`,
`rotate(rotation·π/180)`, `scale(sx, sy)`, then
`drawImage(img, -img.width/2, -img.height/2)` places raster pixel `p`. -/
noncomputable def forwardPoint (W H : ℝ) (L : XfLayer) (p : ℝ × ℝ) : ℝ × ℝ :=
  (W / 2 + L.x +
     (Real.cos (L.rotation * Real.pi / 180) * (layerSX L * (p.1 - L.imgW / 2)) -
      Real.sin (L.rotation * Real.pi / 180) * (layerSY L * (p.2 - L.imgH / 2))),
   H / 2 + L.y +
     (Real.sin (L.rotation * Real.pi / 180) * (layerSX L * (p.1 - L.imgW / 2)) +
      Real.cos (L.rotation * Real.pi / 180) * (layerSY L * (p.2 - L.imgH / 2))))

/-- `AeTimelineView.#canvasToLayerCoords`: subtract the translation
`(W/2 + x, H/2 + y)`, rotate by `angleRad = -(rotation·π/180)` via
`rx = x·cos - y·sin`, `ry = x·sin + y·cos`, divide by the signed scale
factors, add half the raster size. -/
noncomputable def canvasToLayerCoords (W H : ℝ) (L : XfLayer) (pos : ℝ × ℝ) : ℝ × ℝ :=
  (((pos.1 - (W / 2 + L.x)) * Real.cos (-(L.rotation * Real.pi / 180)) -
      (pos.2 - (H / 2 + L.y)) * Real.sin (-(L.rotation * Real.pi / 180))) / layerSX L +
    L.imgW / 2,
   ((pos.1 - (W / 2 + L.x)) * Real.sin (-(L.rotation * Real.pi / 180)) +
      (pos.2 - (H / 2 + L.y)) * Real.cos (-(L.rotation * Real.pi / 180))) / layerSY L +
    L.imgH / 2)

theorem layerSX_ne_zero {L : XfLayer} (hx : 0 ≤ L.scale_x) : layerSX L ≠ 0 := by
  have heff : effScale L.scale_x ≠ 0 := by
    rw [effScale]
    split
    · exact one_ne_zero
    · assumption
  rw [layerSX]
  rcases lt_or_le (1/2 : ℝ) L.flip_h with hf | hf
  · rw [if_pos hf]
    simpa using heff
  · rw [if_neg (not_lt.mpr hf)]
    simpa using heff

theorem layerSY_ne_zero {L : XfLayer} (hy : 0 ≤ L.scale_y) : layerSY L ≠ 0 := by
  have heff : effScale L.scale_y ≠ 0 := by
    rw [effScale]
    split
    · exact one_ne_zero
    · assumption
  rw [layerSY]
  rcases lt_or_le (1/2 : ℝ) L.flip_v with hf | hf
  · rw [if_pos hf]
    simpa using heff
  · rw [if_neg (not_lt.mpr hf)]
    simpa using heff

/-- C2. For every snapshot with positive scales, the inverse mapping
`#canvasToLayerCoords` exactly inverts the forward render chain of
`#render` — for any rotation angle, both flips on or off, and
non-uniform scale: mapping a layer-local raster coordinate to canvas
space and back returns the original coordinate (exactly, hence within
any floating-point epsilon). -/
theorem c2_inverse_roundtrip (W H : ℝ) (L : XfLayer) (hx : 0 < L.scale_x)
    (hy : 0 < L.scale_y) (p : ℝ × ℝ) :
    canvasToLayerCoords W H L (forwardPoint W H L p) = p := by
  have hsx : layerSX L ≠ 0 := layerSX_ne_zero (le_of_lt hx)
  have hsy : layerSY L ≠ 0 := layerSY_ne_zero (le_of_lt hy)
  have hpyth : Real.cos (L.rotation * Real.pi / 180) ^ 2 +
      Real.sin (L.rotation * Real.pi / 180) ^ 2 = 1 :=
    Real.cos_sq_add_sin_sq _
  simp only [canvasToLayerCoords, forwardPoint, Real.cos_neg, Real.sin_neg]
  apply Prod.ext
  · field_simp
    linear_combination (4 * layerSX L * (p.1 - L.imgW / 2)) * hpyth
  · field_simp
    linear_combination (8 * layerSY L * (p.2 - L.imgH / 2)) * hpyth

/-- Witness for C2: round-trip at a concrete snapshot with rotation 45°,
horizontal flip on, non-uniform scale `(2, 1/2)` and offset `(5, -3)`. -/
theorem c2_inverse_roundtrip_witness :
    canvasToLayerCoords 200 200 ⟨5, -3, 2, 1/2, 45, 1, 0, 100, 100⟩
      (forwardPoint 200 200 ⟨5, -3, 2, 1/2, 45, 1, 0, 100, 100⟩ (10, 20)) = (10, 20) :=
  c2_inverse_roundtrip 200 200 ⟨5, -3, 2, 1/2, 45, 1, 0, 100, 100⟩
    (by norm_num) (by norm_num) (10, 20)

/-- `#onCanvasWheel` scale update:
`Math.max(0.01, Math.min(5, (layer.scale_x || 1) * factor))`. -/
noncomputable def wheelScale (s factor : ℝ) : ℝ :=
  max (1/100) (min 5 (effScale s * factor))

/-- The inverse mapping as claim C9 describes it, stated from the spec's
words for comparison with `canvasToLayerCoords`: the scale factors are
clamped to the minimum positive value `0.01` before being used as
divisors. -/
noncomputable def claimClampedToLayerCoords (W H : ℝ) (L : XfLayer) (pos : ℝ × ℝ) :
    ℝ × ℝ :=
  (((pos.1 - (W / 2 + L.x)) * Real.cos (-(L.rotation * Real.pi / 180)) -
      (pos.2 - (H / 2 + L.y)) * Real.sin (-(L.rotation * Real.pi / 180))) /
      (max (1/100) L.scale_x * (if L.flip_h > 1/2 then -1 else 1)) +
    L.imgW / 2,
   ((pos.1 - (W / 2 + L.x)) * Real.sin (-(L.rotation * Real.pi / 180)) +
      (pos.2 - (H / 2 + L.y)) * Real.cos (-(L.rotation * Real.pi / 180))) /
      (max (1/100) L.scale_y * (if L.flip_v > 1/2 then -1 else 1)) +
    L.imgH / 2)

/-- A snapshot with `scale_x = 1/200`, below the alleged `0.01` clamp. -/
noncomputable def tinyScaleLayer : XfLayer := ⟨0, 0, 1/200, 1, 0, 0, 0, 100, 100⟩

/-- Counterexample for C9 as stated: `#canvasToLayerCoords` applies no
`0.01` clamp — with `scale_x = 1/200` it divides by `1/200` itself
(giving local x `2050`), while the claimed clamped mapping would divide
by `0.01` (giving `1050`). -/
theorem c9_no_clamp_counterexample :
    canvasToLayerCoords 200 200 tinyScaleLayer (110, 100) = (2050, 50) ∧
    claimClampedToLayerCoords 200 200 tinyScaleLayer (110, 100) = (1050, 50) ∧
    canvasToLayerCoords 200 200 tinyScaleLayer (110, 100) ≠
      claimClampedToLayerCoords 200 200 tinyScaleLayer (110, 100) := by
  have h1 : canvasToLayerCoords 200 200 tinyScaleLayer (110, 100) = (2050, 50) := by
    norm_num [canvasToLayerCoords, tinyScaleLayer, layerSX, layerSY, effScale,
      Real.cos_zero, Real.sin_zero, Prod.ext_iff]
  have h2 : claimClampedToLayerCoords 200 200 tinyScaleLayer (110, 100) = (1050, 50) := by
    norm_num [claimClampedToLayerCoords, tinyScaleLayer, Real.cos_zero, Real.sin_zero,
      Prod.ext_iff]
  refine ⟨h1, h2, ?_⟩
  rw [h1, h2]
  intro hcontra
  have := congrArg Prod.fst hcontra
  norm_num at this

/-- C9 (amended). `#canvasToLayerCoords` applies no minimum clamp to the
scale divisors; instead a scale of exactly `0` is replaced by `1` (the JS
`|| 1` falsy default), so for any snapshot with non-negative scale
factors the divisors are nonzero and the inverse mapping never divides by
zero; separately, `#onCanvasWheel` keeps the stored scales inside
`[0.01, 5]`. -/
theorem c9_divisors_nonzero_wheel_clamped (L : XfLayer) (hx : 0 ≤ L.scale_x)
    (hy : 0 ≤ L.scale_y) :
    layerSX L ≠ 0 ∧ layerSY L ≠ 0 ∧
    (L.scale_x = 0 → effScale L.scale_x = 1) ∧
    (∀ s factor : ℝ, 1/100 ≤ wheelScale s factor ∧ wheelScale s factor ≤ 5) := by
  refine ⟨layerSX_ne_zero hx, layerSY_ne_zero hy, fun h => by rw [effScale, if_pos h],
    fun s factor => ⟨le_max_left _ _, ?_⟩⟩
  exact max_le (by norm_num) (min_le_left _ _)

/-- Witness for C9 (amended): instantiated at the `scale_x = 1/200`
snapshot, both divisors are nonzero and a wheel step at factor `1.1`
stays inside `[0.01, 5]`. -/
theorem c9_divisors_nonzero_wheel_clamped_witness :
    layerSX tinyScaleLayer ≠ 0 ∧ layerSY tinyScaleLayer ≠ 0 ∧
    (tinyScaleLayer.scale_x = 0 → effScale tinyScaleLayer.scale_x = 1) ∧
    (∀ s factor : ℝ, 1/100 ≤ wheelScale s factor ∧ wheelScale s factor ≤ 5) :=
  c9_divisors_nonzero_wheel_clamped tinyScaleLayer (by norm_num [tinyScaleLayer])
    (by norm_num [tinyScaleLayer])

/-! ## Background draw modes (`#drawBackground`) -/

/-- `layer.bg_mode ∈ {"fit", "fill", "stretch"}`. -/
inductive BgMode where
  | fit : BgMode
  | fill : BgMode
  | stretch : BgMode
deriving DecidableEq, Repr

/-- JS `(s || 1)` on a rational scale. -/
def effScaleQ (s : ℚ) : ℚ := if s = 0 then 1 else s

/-- The background layer fields read by `#drawBackground`. -/
structure BgLayer where
  scale_x : ℚ
  scale_y : ℚ
  flip_h : ℚ
  flip_v : ℚ
  bg_mode : BgMode

/-- The scale/draw-size command `#drawBackground` issues: `ctx.scale(sx, sy)`
followed by `drawImage` with size `(drawW, drawH)` centred on the origin. -/
structure BgDraw where
  sx : ℚ
  sy : ℚ
  drawW : ℚ
  drawH : ℚ
deriving DecidableEq, Repr

/-- The `baseScale` of `#drawBackground`: `min` of the canvas/raster ratios
in fit mode, `max` in fill mode; stretch mode does not use a scalar. -/
def baseScale (mode : BgMode) (W H iw ih : ℚ) : ℚ :=
  match mode with
  | .fit => min (W / iw) (H / ih)
  | .fill => max (W / iw) (H / ih)
  | .stretch => 1

/-- `AeTimelineView.#drawBackground` (rotation/translation elided — they do
not affect the drawn size): stretch mode scales by the flip signs only and
draws at `(W·userScaleX, H·userScaleY)`; fit/fill modes scale by
`baseScale · userScale · flip` and draw at the raster's natural size. -/
def drawBackground (W H iw ih : ℚ) (L : BgLayer) : BgDraw :=
  match L.bg_mode with
  | .stretch =>
      ⟨if L.flip_h > 1/2 then -1 else 1, if L.flip_v > 1/2 then -1 else 1,
       W * effScaleQ L.scale_x, H * effScaleQ L.scale_y⟩
  | .fit =>
      ⟨min (W / iw) (H / ih) * effScaleQ L.scale_x * (if L.flip_h > 1/2 then -1 else 1),
       min (W / iw) (H / ih) * effScaleQ L.scale_y * (if L.flip_v > 1/2 then -1 else 1),
       iw, ih⟩
  | .fill =>
      ⟨max (W / iw) (H / ih) * effScaleQ L.scale_x * (if L.flip_h > 1/2 then -1 else 1),
       max (W / iw) (H / ih) * effScaleQ L.scale_y * (if L.flip_v > 1/2 then -1 else 1),
       iw, ih⟩

/-- Horizontal extent on the canvas of the issued draw. -/
def drawnWidth (d : BgDraw) : ℚ := |d.sx| * d.drawW

theorem abs_flip_factor (f : ℚ) : |if f > 1/2 then (-1 : ℚ) else 1| = 1 := by
  split <;> norm_num

/-- C7. The background draw composes `baseScale` (`min` of ratios in fit
mode, `max` in fill mode) multiplicatively with the user scale and the
flip sign, while stretch mode uses the canvas dimensions directly as draw
size; concretely a `1000×500` raster in fit mode on a `1280×720` canvas
has `baseScale = 1.28` and is drawn `1280` canvas pixels wide. -/
theorem c7_background_modes (W H iw ih : ℚ) (L : BgLayer) (hiw : 0 < iw)
    (hih : 0 < ih) (hW : 0 < W) (hH : 0 < H) (hsx : 0 < L.scale_x) :
    (L.bg_mode = .fit →
      drawnWidth (drawBackground W H iw ih L) = iw * min (W / iw) (H / ih) * L.scale_x) ∧
    (L.bg_mode = .fill →
      drawnWidth (drawBackground W H iw ih L) = iw * max (W / iw) (H / ih) * L.scale_x) ∧
    (L.bg_mode = .stretch →
      drawnWidth (drawBackground W H iw ih L) = W * L.scale_x) ∧
    baseScale .fit 1280 720 1000 500 = 32/25 ∧
    drawnWidth (drawBackground 1280 720 1000 500 ⟨1, 1, 0, 0, .fit⟩) = 1280 := by
  have hu : effScaleQ L.scale_x = L.scale_x := by
    rw [effScaleQ, if_neg (ne_of_gt hsx)]
  have hbfit : 0 < min (W / iw) (H / ih) :=
    lt_min (div_pos hW hiw) (div_pos hH hih)
  have hbfill : 0 < max (W / iw) (H / ih) := lt_of_lt_of_le hbfit (min_le_max)
  refine ⟨?_, ?_, ?_, by norm_num [baseScale], ?_⟩
  · intro hm
    rw [drawnWidth, drawBackground, hm]
    simp only [abs_mul, abs_flip_factor, hu]
    rw [abs_of_pos hbfit, abs_of_pos hsx]
    ring
  · intro hm
    rw [drawnWidth, drawBackground, hm]
    simp only [abs_mul, abs_flip_factor, hu]
    rw [abs_of_pos hbfill, abs_of_pos hsx]
    ring
  · intro hm
    rw [drawnWidth, drawBackground, hm]
    simp only [abs_flip_factor, hu]
    rw [one_mul]
  · norm_num [drawnWidth, drawBackground, effScaleQ]
    rw [show |(32/25 : ℚ)| = 32/25 from abs_of_pos (by norm_num)]
    norm_num

/-- Witness for C7: the theorem instantiated on the scenario — fit mode,
raster `1000×500`, canvas `1280×720`, user scale `1`: `baseScale = 32/25`
and the drawn width is `1280` pixels. -/
theorem c7_background_modes_witness :
    drawnWidth (drawBackground 1280 720 1000 500 ⟨1, 1, 0, 0, .fit⟩) =
      1000 * min (1280 / 1000 : ℚ) (720 / 500) * 1 ∧
    baseScale .fit 1280 720 1000 500 = 32/25 := by
  obtain ⟨hfit, _, _, hbase, _⟩ :=
    c7_background_modes 1280 720 1000 500 ⟨1, 1, 0, 0, .fit⟩ (by norm_num)
      (by norm_num) (by norm_num) (by norm_num) (by norm_num)
  exact ⟨hfit rfl, hbase⟩

/-! ## Rasters and the region-extraction / inpainting engine
(`BackgroundExtractor.extract`, `applyGaussianBlur`,
`AeTimelineView.#applyExtraction`) -/

/-- One RGBA pixel of an `ImageData` buffer (channel values are the byte
values stored at offsets `i`, `i+1`, `i+2`, `i+3`). -/
structure RGBA where
  r : ℤ
  g : ℤ
  b : ℤ
  a : ℤ
deriving DecidableEq, Repr

/-- A pixel buffer addressed by integer coordinates `(x, y)`. -/
abbrev Img := ℤ × ℤ → RGBA

/-- `0 ≤ nx < width ∧ 0 ≤ ny < height`: the neighbour bounds check of the
pixel loops. -/
def inBounds (W H : ℕ) (q : ℤ × ℤ) : Prop :=
  0 ≤ q.1 ∧ q.1 < (W : ℤ) ∧ 0 ≤ q.2 ∧ q.2 < (H : ℤ)

instance (W H : ℕ) (q : ℤ × ℤ) : Decidable (inBounds W H q) :=
  decidable_of_iff (0 ≤ q.1 ∧ q.1 < (W : ℤ) ∧ 0 ≤ q.2 ∧ q.2 < (H : ℤ)) Iff.rfl

/-- The foreground cut-out loop shared by `BackgroundExtractor.extract`
and `AeTimelineView.#applyExtraction`: where the mask's red channel
exceeds 128 copy the background colour with alpha 255, otherwise leave
the `createImageData` zero pixel with alpha 0. -/
def extractForeground (bg mask : Img) : Img := fun p =>
  if (mask p).r > 128 then ⟨(bg p).r, (bg p).g, (bg p).b, 255⟩ else ⟨0, 0, 0, 0⟩

/-- C3. Region extraction partitions every pixel exactly once: the
foreground pixel is opaque (alpha 255) with the background's RGB exactly
when the mask's red channel exceeds 128, is fully transparent (alpha 0)
otherwise, and no pixel is both. -/
theorem c3_extraction_partition (bg mask : Img) (p : ℤ × ℤ) :
    (((extractForeground bg mask p).a = 255 ∧
        (extractForeground bg mask p).r = (bg p).r ∧
        (extractForeground bg mask p).g = (bg p).g ∧
        (extractForeground bg mask p).b = (bg p).b) ↔ (mask p).r > 128) ∧
    ((mask p).r ≤ 128 → (extractForeground bg mask p).a = 0) ∧
    ¬ ((extractForeground bg mask p).a = 255 ∧ (extractForeground bg mask p).a = 0) := by
  by_cases hm : (mask p).r > 128
  · simp [extractForeground, if_pos hm, hm, not_le.mpr hm]
  · simp [extractForeground, if_neg hm, hm]

/-- Witness for C3: the partition evaluated on a concrete two-pixel image
— a selected pixel `(0,0)` (mask 200) and an unselected pixel `(1,0)`
(mask 0). -/
theorem c3_extraction_partition_witness :
    ((extractForeground (fun _ => ⟨9, 8, 7, 255⟩)
        (fun q => if q = (0, 0) then ⟨200, 0, 0, 255⟩ else ⟨0, 0, 0, 255⟩)) (0, 0)).a =
      255 ∧
    ((extractForeground (fun _ => ⟨9, 8, 7, 255⟩)
        (fun q => if q = (0, 0) then ⟨200, 0, 0, 255⟩ else ⟨0, 0, 0, 255⟩)) (0, 0)).r = 9 ∧
    ((extractForeground (fun _ => ⟨9, 8, 7, 255⟩)
        (fun q => if q = (0, 0) then ⟨200, 0, 0, 255⟩ else ⟨0, 0, 0, 255⟩)) (1, 0)).a =
      0 := by
  obtain ⟨hiff, _, _⟩ := c3_extraction_partition (fun _ => ⟨9, 8, 7, 255⟩)
    (fun q => if q = (0, 0) then ⟨200, 0, 0, 255⟩ else ⟨0, 0, 0, 255⟩) (0, 0)
  obtain ⟨_, hout, _⟩ := c3_extraction_partition (fun _ => ⟨9, 8, 7, 255⟩)
    (fun q => if q = (0, 0) then ⟨200, 0, 0, 255⟩ else ⟨0, 0, 0, 255⟩) (1, 0)
  obtain ⟨ha, hr, _, _⟩ := hiff.mpr (by norm_num)
  exact ⟨ha, hr, hout (by norm_num)⟩

/-! ## Background hole fill (step 2 of `BackgroundExtractor.extract`) -/

/-- The neighbour offsets of the hole-fill loops:
`dy` and `dx` each range over `-blurRadius .. blurRadius` with
`blurRadius = 10`; the pair is `(dx, dy)`. -/
def fillOffsets : Finset (ℤ × ℤ) := Finset.Icc (-10 : ℤ) 10 ×ˢ Finset.Icc (-10 : ℤ) 10

/-- A neighbour qualifies for sampling when it is in bounds and its mask
red channel is strictly below 128 (`if (nmask < 128)`). -/
def fillCond (mask : Img) (W H : ℕ) (x y dx dy : ℤ) : Prop :=
  inBounds W H (x + dx, y + dy) ∧ (mask (x + dx, y + dy)).r < 128

instance (mask : Img) (W H : ℕ) (x y dx dy : ℤ) :
    Decidable (fillCond mask W H x y dx dy) :=
  decidable_of_iff
    (inBounds W H (x + dx, y + dy) ∧ (mask (x + dx, y + dy)).r < 128) Iff.rfl

/-- `weight = Math.max(0, blurRadius - Math.sqrt(dx*dx + dy*dy))`. -/
noncomputable def fillWeight (dx dy : ℤ) : ℝ :=
  max 0 (10 - Real.sqrt ((dx : ℝ) ^ 2 + (dy : ℝ) ^ 2))

/-- The weighted colour accumulator (`sumR`/`sumG`/`sumB`) for one pixel. -/
noncomputable def fillSum (bg mask : Img) (W H : ℕ) (x y : ℤ) (ch : RGBA → ℤ) : ℝ :=
  ∑ o in fillOffsets,
    if fillCond mask W H x y o.1 o.2 then
      fillWeight o.1 o.2 * ((ch (bg (x + o.1, y + o.2)) : ℤ) : ℝ)
    else 0

/-- The weight accumulator (`count`) for one pixel. -/
noncomputable def fillCount (mask : Img) (W H : ℕ) (x y : ℤ) : ℝ :=
  ∑ o in fillOffsets, if fillCond mask W H x y o.1 o.2 then fillWeight o.1 o.2 else 0

/-- One pixel of the first-pass hole fill: a selected pixel
(`maskValue > 128`) with positive accumulated weight gets the rounded
weighted average with alpha 255; any other pixel keeps the copied
original background value. -/
noncomputable def fillPixel (bg mask : Img) (W H : ℕ) (x y : ℤ) : RGBA :=
  if (mask (x, y)).r > 128 ∧ 0 < fillCount mask W H x y then
    ⟨round (fillSum bg mask W H x y RGBA.r / fillCount mask W H x y),
     round (fillSum bg mask W H x y RGBA.g / fillCount mask W H x y),
     round (fillSum bg mask W H x y RGBA.b / fillCount mask W H x y),
     255⟩
  else bg (x, y)

/-- The whole first-pass filled background `B'` (the source reads the
original `bgData` and writes a separate `filledData` buffer, so the
update is pointwise). -/
noncomputable def fillImage (bg mask : Img) (W H : ℕ) : Img :=
  fun p => fillPixel bg mask W H p.1 p.2

/-- The neighbour condition as claim C4 states it (`M(q) ≤ 128`, i.e.
non-strict), stated from the claim's words for comparison with
`fillCond`. -/
def claimFillCond (mask : Img) (W H : ℕ) (x y dx dy : ℤ) : Prop :=
  inBounds W H (x + dx, y + dy) ∧ (mask (x + dx, y + dy)).r ≤ 128

instance (mask : Img) (W H : ℕ) (x y dx dy : ℤ) :
    Decidable (claimFillCond mask W H x y dx dy) :=
  decidable_of_iff
    (inBounds W H (x + dx, y + dy) ∧ (mask (x + dx, y + dy)).r ≤ 128) Iff.rfl

/-- The hole-fill pixel as claim C4 states it: identical to `fillPixel`
except that neighbours with mask value exactly 128 also qualify. -/
noncomputable def claimFillPixel (bg mask : Img) (W H : ℕ) (x y : ℤ) : RGBA :=
  if (mask (x, y)).r > 128 ∧
      0 < (∑ o in fillOffsets,
        if claimFillCond mask W H x y o.1 o.2 then fillWeight o.1 o.2 else 0) then
    ⟨round ((∑ o in fillOffsets,
        if claimFillCond mask W H x y o.1 o.2 then
          fillWeight o.1 o.2 * ((bg (x + o.1, y + o.2)).r : ℝ) else 0) /
      ∑ o in fillOffsets,
        if claimFillCond mask W H x y o.1 o.2 then fillWeight o.1 o.2 else 0),
     round ((∑ o in fillOffsets,
        if claimFillCond mask W H x y o.1 o.2 then
          fillWeight o.1 o.2 * ((bg (x + o.1, y + o.2)).g : ℝ) else 0) /
      ∑ o in fillOffsets,
        if claimFillCond mask W H x y o.1 o.2 then fillWeight o.1 o.2 else 0),
     round ((∑ o in fillOffsets,
        if claimFillCond mask W H x y o.1 o.2 then
          fillWeight o.1 o.2 * ((bg (x + o.1, y + o.2)).b : ℝ) else 0) /
      ∑ o in fillOffsets,
        if claimFillCond mask W H x y o.1 o.2 then fillWeight o.1 o.2 else 0),
     255⟩
  else bg (x, y)

/-- A pixel with no qualifying neighbour in the radius-10 window keeps
its original (copied) background value. -/
theorem fillPixel_of_no_neighbor (bg mask : Img) (W H : ℕ) (x y : ℤ)
    (hnone : ∀ o ∈ fillOffsets, ¬ fillCond mask W H x y o.1 o.2) :
    fillPixel bg mask W H x y = bg (x, y) := by
  have hzero : fillCount mask W H x y = 0 :=
    Finset.sum_eq_zero fun o ho => if_neg (hnone o ho)
  rw [fillPixel, if_neg]
  intro hcontra
  rw [hzero] at hcontra
  exact lt_irrefl 0 hcontra.2

/-- C4 (amended). The first-pass hole fill writes, at every selected pixel
(`M(p) > 128`) with positive accumulated weight, the rounded weighted
average over the in-bounds neighbours within the radius-10 window whose
mask value is strictly below 128 (each weighted by
`max 0 (10 - distance)`), and leaves the pixel at its original background
value when no such neighbour exists. -/
theorem c4_fill_weighted_average (bg mask : Img) (W H : ℕ) (x y : ℤ) :
    ((mask (x, y)).r > 128 → 0 < fillCount mask W H x y →
      fillPixel bg mask W H x y =
        ⟨round ((∑ o in fillOffsets.filter (fun o => fillCond mask W H x y o.1 o.2),
            fillWeight o.1 o.2 * ((bg (x + o.1, y + o.2)).r : ℝ)) /
          ∑ o in fillOffsets.filter (fun o => fillCond mask W H x y o.1 o.2),
            fillWeight o.1 o.2),
         round ((∑ o in fillOffsets.filter (fun o => fillCond mask W H x y o.1 o.2),
            fillWeight o.1 o.2 * ((bg (x + o.1, y + o.2)).g : ℝ)) /
          ∑ o in fillOffsets.filter (fun o => fillCond mask W H x y o.1 o.2),
            fillWeight o.1 o.2),
         round ((∑ o in fillOffsets.filter (fun o => fillCond mask W H x y o.1 o.2),
            fillWeight o.1 o.2 * ((bg (x + o.1, y + o.2)).b : ℝ)) /
          ∑ o in fillOffsets.filter (fun o => fillCond mask W H x y o.1 o.2),
            fillWeight o.1 o.2),
         255⟩) ∧
    ((∀ o ∈ fillOffsets, ¬ fillCond mask W H x y o.1 o.2) →
      fillPixel bg mask W H x y = bg (x, y)) := by
  constructor
  · intro hm hc
    rw [fillPixel, if_pos ⟨hm, hc⟩]
    simp only [Finset.sum_filter, fillSum, fillCount]
  · exact fillPixel_of_no_neighbor bg mask W H x y

/-- The weight of the axis neighbour at offset `(-1, 0)`:
`max 0 (10 - √1) = 9`. -/
theorem fillWeight_neg_one_zero : fillWeight (-1) 0 = 9 := by
  have h1 : (((-1 : ℤ) : ℝ) ^ 2 + ((0 : ℤ) : ℝ) ^ 2) = 1 := by norm_num
  rw [fillWeight, h1, Real.sqrt_one]
  norm_num

/-- 2×1 counterexample background: pixel `(0,0)` is RGB 7, pixel `(1,0)`
is RGB 200. -/
def bgCex : Img := fun p => if p = (0, 0) then ⟨7, 7, 7, 255⟩ else ⟨200, 200, 200, 255⟩

/-- 2×1 counterexample mask: pixel `(0,0)` has mask value exactly 128
(not selected, since selection needs `> 128`), pixel `(1,0)` is selected
with mask value 200. -/
def maskCex : Img := fun p =>
  if p = (0, 0) then ⟨128, 0, 0, 255⟩
  else if p = (1, 0) then ⟨200, 0, 0, 255⟩ else ⟨0, 0, 0, 255⟩

/-- Counterexample for C4 as stated: on a 2×1 background whose only
unselected neighbour has mask value exactly 128, the code's fill
(neighbours need `M < 128`) finds no sample and keeps the original value
200, while the claim's fill (neighbours need `M ≤ 128`) would average
that neighbour and produce 7. -/
theorem c4_mask_threshold_counterexample :
    (fillPixel bgCex maskCex 2 1 1 0).r = 200 ∧
    (claimFillPixel bgCex maskCex 2 1 1 0).r = 7 ∧
    (fillPixel bgCex maskCex 2 1 1 0).r ≠ (claimFillPixel bgCex maskCex 2 1 1 0).r := by
  have hcode : (fillPixel bgCex maskCex 2 1 1 0).r = 200 := by
    rw [fillPixel_of_no_neighbor bgCex maskCex 2 1 1 0 (by decide)]
    decide
  have hni : ∀ o ∈ fillOffsets, o ≠ ((-1 : ℤ), (0 : ℤ)) →
      ¬ claimFillCond maskCex 2 1 1 0 o.1 o.2 := by decide
  have hcount : (∑ o in fillOffsets,
      if claimFillCond maskCex 2 1 1 0 o.1 o.2 then fillWeight o.1 o.2 else 0) = 9 := by
    rw [Finset.sum_eq_single_of_mem ((-1 : ℤ), (0 : ℤ)) (by decide)
      (fun b hb hne => if_neg (hni b hb hne)), if_pos (by decide),
      fillWeight_neg_one_zero]
  have hsum : (∑ o in fillOffsets,
      if claimFillCond maskCex 2 1 1 0 o.1 o.2 then
        fillWeight o.1 o.2 * ((bgCex (1 + o.1, 0 + o.2)).r : ℝ) else 0) = 63 := by
    rw [Finset.sum_eq_single_of_mem ((-1 : ℤ), (0 : ℤ)) (by decide)
      (fun b hb hne => if_neg (hni b hb hne)), if_pos (by decide),
      fillWeight_neg_one_zero]
    norm_num [bgCex]
  have hclaim : (claimFillPixel bgCex maskCex 2 1 1 0).r = 7 := by
    rw [claimFillPixel, if_pos ⟨by decide, by rw [hcount]; norm_num⟩]
    show round ((∑ o in fillOffsets,
        if claimFillCond maskCex 2 1 1 0 o.1 o.2 then
          fillWeight o.1 o.2 * ((bgCex (1 + o.1, 0 + o.2)).r : ℝ) else 0) /
      ∑ o in fillOffsets,
        if claimFillCond maskCex 2 1 1 0 o.1 o.2 then fillWeight o.1 o.2 else 0) = 7
    rw [hsum, hcount]
    norm_num [round_eq]
  refine ⟨hcode, hclaim, ?_⟩
  rw [hcode, hclaim]
  norm_num

/-- 3×1 witness background: RGB `(7, 6, 5)` at `(0,0)`, RGB 200 elsewhere. -/
def bgFillW : Img := fun p => if p = (0, 0) then ⟨7, 6, 5, 255⟩ else ⟨200, 200, 200, 255⟩

/-- 3×1 witness mask: `(0,0)` unselected (mask 0), everything else
selected (mask 200). -/
def maskFillW : Img := fun p => if p = (0, 0) then ⟨0, 0, 0, 255⟩ else ⟨200, 0, 0, 255⟩

/-- An all-selected mask (value 200 everywhere). -/
def maskAllSel : Img := fun _ => ⟨200, 0, 0, 255⟩

/-- Witness for C4 (amended): at pixel `(1,0)` of a 3×1 image whose only
qualifying neighbour is `(0,0)`, the fill produces the rounded weighted
average over the filtered neighbour set; and on a fully selected 1×1
image the selected pixel keeps its original value. -/
theorem c4_fill_weighted_average_witness :
    fillPixel bgFillW maskFillW 3 1 1 0 =
      ⟨round ((∑ o in fillOffsets.filter (fun o => fillCond maskFillW 3 1 1 0 o.1 o.2),
          fillWeight o.1 o.2 * ((bgFillW (1 + o.1, 0 + o.2)).r : ℝ)) /
        ∑ o in fillOffsets.filter (fun o => fillCond maskFillW 3 1 1 0 o.1 o.2),
          fillWeight o.1 o.2),
       round ((∑ o in fillOffsets.filter (fun o => fillCond maskFillW 3 1 1 0 o.1 o.2),
          fillWeight o.1 o.2 * ((bgFillW (1 + o.1, 0 + o.2)).g : ℝ)) /
        ∑ o in fillOffsets.filter (fun o => fillCond maskFillW 3 1 1 0 o.1 o.2),
          fillWeight o.1 o.2),
       round ((∑ o in fillOffsets.filter (fun o => fillCond maskFillW 3 1 1 0 o.1 o.2),
          fillWeight o.1 o.2 * ((bgFillW (1 + o.1, 0 + o.2)).b : ℝ)) /
        ∑ o in fillOffsets.filter (fun o => fillCond maskFillW 3 1 1 0 o.1 o.2),
          fillWeight o.1 o.2),
       255⟩ ∧
    fillPixel bgFillW maskAllSel 1 1 0 0 = bgFillW (0, 0) := by
  have hni : ∀ o ∈ fillOffsets, o ≠ ((-1 : ℤ), (0 : ℤ)) →
      ¬ fillCond maskFillW 3 1 1 0 o.1 o.2 := by decide
  have hcount : fillCount maskFillW 3 1 1 0 = 9 := by
    rw [fillCount, Finset.sum_eq_single_of_mem ((-1 : ℤ), (0 : ℤ)) (by decide)
      (fun b hb hne => if_neg (hni b hb hne)), if_pos (by decide),
      fillWeight_neg_one_zero]
  exact ⟨(c4_fill_weighted_average bgFillW maskFillW 3 1 1 0).1 (by decide)
      (by rw [hcount]; norm_num),
    (c4_fill_weighted_average bgFillW maskAllSel 1 1 0 0).2 (by decide)⟩

/-! ## Smoothing pass (`BackgroundExtractor.applyGaussianBlur`) -/

/-- Assignment to a `Uint8ClampedArray` element: round to the nearest
integer with half-way cases to the even neighbour, clamped to `[0, 255]`. -/
def roundHalfEven (q : ℚ) : ℤ :=
  if q - ⌊q⌋ < 1/2 then ⌊q⌋
  else if 1/2 < q - ⌊q⌋ then ⌊q⌋ + 1
  else if ⌊q⌋ % 2 = 0 then ⌊q⌋ else ⌊q⌋ + 1

/-- `Uint8ClampedArray` store conversion. -/
def u8clamp (q : ℚ) : ℤ := min 255 (max 0 (roundHalfEven q))

/-- The 3×3 Gaussian kernel `[[1,2,1],[2,4,2],[1,2,1]]`. -/
def kernel3 : List (List ℚ) := [[1, 2, 1], [2, 4, 2], [1, 2, 1]]

/-- `kernel[ky + 1][kx + 1]`. -/
def kWeight (kx ky : ℤ) : ℚ := (kernel3.getD (ky + 1).toNat []).getD (kx + 1).toNat 0

/-- The kernel offsets `-1 .. 1`. -/
def koffs : List ℤ := [-1, 0, 1]

/-- One channel of the 3×3 convolution, reading the previous iteration's
snapshot (`tempData`), divided by `kernelSum = 16`. -/
def blurChannel (img : Img) (x y : ℤ) (ch : RGBA → ℤ) : ℚ :=
  ((koffs.map fun ky =>
      (koffs.map fun kx =>
        kWeight kx ky * ((ch (img (x + kx, y + ky)) : ℤ) : ℚ)).sum).sum) / 16

/-- One pixel of one iteration of `applyGaussianBlur`: interior pixels
(`1 ≤ x ≤ W-2`, `1 ≤ y ≤ H-2`) whose mask value exceeds 64 get the
convolved RGB (alpha untouched); every other pixel passes through. -/
def blurPixel (W H : ℕ) (mask img : Img) (x y : ℤ) : RGBA :=
  if 1 ≤ x ∧ x ≤ (W : ℤ) - 2 ∧ 1 ≤ y ∧ y ≤ (H : ℤ) - 2 ∧ (mask (x, y)).r > 64 then
    ⟨u8clamp (blurChannel img x y RGBA.r),
     u8clamp (blurChannel img x y RGBA.g),
     u8clamp (blurChannel img x y RGBA.b),
     (img (x, y)).a⟩
  else img (x, y)

/-- One iteration of `applyGaussianBlur` over the whole buffer; the
convolution reads the snapshot `tempData` of the previous iteration, so
the update is pointwise in the old image. -/
def blurStep (W H : ℕ) (mask img : Img) (p : ℤ × ℤ) : RGBA :=
  blurPixel W H mask img p.1 p.2

/-- `applyGaussianBlur(source, mask, iterations)`: iterate `blurStep`. -/
def blurN (W H : ℕ) (mask : Img) : ℕ → Img → Img
  | 0, img => img
  | n + 1, img => blurN W H mask n (blurStep W H mask img)

/-- A pixel that is not selected (`M ≤ 128`) is not written by the hole
fill. -/
theorem fillPixel_not_selected (bg mask : Img) (W H : ℕ) (x y : ℤ)
    (hm : (mask (x, y)).r ≤ 128) :
    fillPixel bg mask W H x y = bg (x, y) := by
  rw [fillPixel, if_neg]
  intro hcontra
  exact absurd hcontra.1 (not_lt.mpr hm)

theorem blurStep_not_blurred (W H : ℕ) (mask img : Img) (p : ℤ × ℤ)
    (hm : (mask p).r ≤ 64) :
    blurStep W H mask img p = img p := by
  rw [blurStep, blurPixel, if_neg, Prod.mk.eta]
  intro hcontra
  have : (mask (p.1, p.2)).r ≤ 64 := by rwa [Prod.mk.eta]
  exact absurd hcontra.2.2.2.2 (not_lt.mpr this)

theorem blurN_fixed_at (W H : ℕ) (mask bg : Img) (p : ℤ × ℤ)
    (hm : (mask p).r ≤ 64) :
    ∀ (n : ℕ) (img : Img), img p = bg p → blurN W H mask n img p = bg p := by
  intro n
  induction n with
  | zero => intro img h; exact h
  | succ k ih =>
    intro img h
    exact ih (blurStep W H mask img) ((blurStep_not_blurred W H mask img p hm).trans h)

/-- C5 (amended). The hole fill writes only selected pixels
(`M > 128`) and each smoothing iteration writes only interior pixels with
`M > 64`, so after fill plus any number of smoothing iterations every
pixel with `M ≤ 64` is byte-identical to the original background; pixels
outside the selection with `64 < M ≤ 128` are *not* protected — the
smoothing may overwrite them. -/
theorem c5_untouched_outside_blur_region (bg mask : Img) (W H : ℕ) (p : ℤ × ℤ) :
    ((mask p).r ≤ 128 → fillImage bg mask W H p = bg p) ∧
    (∀ img : Img, (mask p).r ≤ 64 → blurStep W H mask img p = img p) ∧
    ((mask p).r ≤ 64 → ∀ n : ℕ,
      blurN W H mask n (fillImage bg mask W H) p = bg p) := by
  have hfillp : (mask p).r ≤ 128 → fillImage bg mask W H p = bg p := by
    intro hm
    have h128 : (mask (p.1, p.2)).r ≤ 128 := by rwa [Prod.mk.eta]
    rw [fillImage]
    rw [fillPixel_not_selected bg mask W H p.1 p.2 h128, Prod.mk.eta]
  refine ⟨hfillp, fun img hm => blurStep_not_blurred W H mask img p hm, ?_⟩
  intro hm n
  exact blurN_fixed_at W H mask bg p hm n _ (hfillp (le_trans hm (by norm_num)))

/-- A 3×3 buffer with value `c` on all channels of the centre `(1,1)` and
RGB 0 elsewhere. -/
def centerVal (c : ℤ) (p : ℤ × ℤ) : RGBA :=
  if p = (1, 1) then ⟨c, c, c, 255⟩ else ⟨0, 0, 0, 255⟩

/-- 3×3 counterexample background: RGB 255 at the centre `(1,1)`, RGB 0
elsewhere. -/
def bgBlurCex : Img := centerVal 255

/-- 3×3 counterexample mask: value 100 at the centre (outside the
selection threshold 128, inside the blur threshold 64), 0 elsewhere. -/
def maskBlurCex (p : ℤ × ℤ) : RGBA :=
  if p = (1, 1) then ⟨100, 0, 0, 255⟩ else ⟨0, 0, 0, 255⟩

theorem blurChannel_center (c : ℤ) (ch : RGBA → ℤ)
    (hc : ch ⟨c, c, c, 255⟩ = c) (h0 : ch ⟨0, 0, 0, 255⟩ = 0) :
    blurChannel (centerVal c) 1 1 ch = 4 * (c : ℚ) / 16 := by
  simp [blurChannel, koffs, kWeight, kernel3, centerVal, hc, h0]

/-- On the 3×3 counterexample, one smoothing iteration keeps the
off-centre pixels at 0 and replaces the centre value `c` by the convolved
`u8clamp(4c/16)`. -/
theorem blurStep_center (c : ℤ) :
    blurStep 3 3 maskBlurCex (centerVal c) = centerVal (u8clamp (4 * (c : ℚ) / 16)) := by
  funext p
  by_cases hp : p = ((1 : ℤ), (1 : ℤ))
  · subst hp
    show blurPixel 3 3 maskBlurCex (centerVal c) 1 1 =
      centerVal (u8clamp (4 * (c : ℚ) / 16)) (1, 1)
    rw [blurPixel, if_pos]
    · rw [blurChannel_center c RGBA.r rfl rfl, blurChannel_center c RGBA.g rfl rfl,
        blurChannel_center c RGBA.b rfl rfl, centerVal, if_pos rfl, centerVal, if_pos rfl]
    · exact ⟨le_refl _, by norm_num, le_refl _, by norm_num,
        by rw [maskBlurCex, if_pos rfl]; norm_num⟩
  · show blurPixel 3 3 maskBlurCex (centerVal c) p.1 p.2 =
      centerVal (u8clamp (4 * (c : ℚ) / 16)) p
    rw [blurPixel, if_neg, Prod.mk.eta, centerVal, centerVal, if_neg hp, if_neg hp]
    intro hcon
    apply hp
    have h1 : p.1 = 1 := by omega
    have h2 : p.2 = 1 := by omega
    exact Prod.ext h1 h2

/-- Counterexample for C5 as stated: the centre pixel of a 3×3 background
has mask value 100 — outside the selection (`100 ≤ 128`) — yet after the
hole fill and the five smoothing iterations its red channel has changed
from 255 to 0, because the smoothing threshold is the looser `M > 64`. -/
theorem c5_outside_selection_changed_counterexample :
    (maskBlurCex (1, 1)).r = 100 ∧ ¬ ((maskBlurCex (1, 1)).r > 128) ∧
    blurN 3 3 maskBlurCex 5 (fillImage bgBlurCex maskBlurCex 3 3) (1, 1) ≠
      bgBlurCex (1, 1) := by
  have hfill : fillImage bgBlurCex maskBlurCex 3 3 = bgBlurCex := by
    funext p
    have hm : (maskBlurCex (p.1, p.2)).r ≤ 128 := by
      rw [maskBlurCex]
      split <;> norm_num
    rw [fillImage, fillPixel_not_selected bgBlurCex maskBlurCex 3 3 p.1 p.2 hm,
      Prod.mk.eta]
  have e1 : u8clamp (4 * ((255 : ℤ) : ℚ) / 16) = 64 := by norm_num [u8clamp, roundHalfEven]
  have e2 : u8clamp (4 * ((64 : ℤ) : ℚ) / 16) = 16 := by norm_num [u8clamp, roundHalfEven]
  have e3 : u8clamp (4 * ((16 : ℤ) : ℚ) / 16) = 4 := by norm_num [u8clamp, roundHalfEven]
  have e4 : u8clamp (4 * ((4 : ℤ) : ℚ) / 16) = 1 := by norm_num [u8clamp, roundHalfEven]
  have e5 : u8clamp (4 * ((1 : ℤ) : ℚ) / 16) = 0 := by norm_num [u8clamp, roundHalfEven]
  have hfive : blurN 3 3 maskBlurCex 5 (centerVal 255) (1, 1) = ⟨0, 0, 0, 255⟩ := by
    have h5 : blurN 3 3 maskBlurCex 5 (centerVal 255) =
        blurN 3 3 maskBlurCex 4 (blurStep 3 3 maskBlurCex (centerVal 255)) := rfl
    rw [h5, blurStep_center, e1]
    have h4 : blurN 3 3 maskBlurCex 4 (centerVal 64) =
        blurN 3 3 maskBlurCex 3 (blurStep 3 3 maskBlurCex (centerVal 64)) := rfl
    rw [h4, blurStep_center, e2]
    have h3 : blurN 3 3 maskBlurCex 3 (centerVal 16) =
        blurN 3 3 maskBlurCex 2 (blurStep 3 3 maskBlurCex (centerVal 16)) := rfl
    rw [h3, blurStep_center, e3]
    have h2 : blurN 3 3 maskBlurCex 2 (centerVal 4) =
        blurN 3 3 maskBlurCex 1 (blurStep 3 3 maskBlurCex (centerVal 4)) := rfl
    rw [h2, blurStep_center, e4]
    have h1 : blurN 3 3 maskBlurCex 1 (centerVal 1) =
        blurN 3 3 maskBlurCex 0 (blurStep 3 3 maskBlurCex (centerVal 1)) := rfl
    rw [h1, blurStep_center, e5]
    show centerVal 0 (1, 1) = ⟨0, 0, 0, 255⟩
    rw [centerVal, if_pos rfl]
  refine ⟨by rw [maskBlurCex, if_pos rfl], by rw [maskBlurCex, if_pos rfl]; norm_num, ?_⟩
  rw [hfill, bgBlurCex, hfive]
  show ((⟨0, 0, 0, 255⟩ : RGBA) ≠ centerVal 255 (1, 1))
  rw [centerVal, if_pos rfl]
  intro hcon
  exact absurd (congrArg RGBA.r hcon) (by norm_num)

/-- Witness for C5 (amended): at the corner pixel `(0,0)` (mask value 0)
of the 3×3 counterexample image, the fill, a single smoothing step, and
the full five-iteration pipeline all leave the pixel byte-identical. -/
theorem c5_untouched_outside_blur_region_witness :
    fillImage bgBlurCex maskBlurCex 3 3 (0, 0) = bgBlurCex (0, 0) ∧
    blurStep 3 3 maskBlurCex bgBlurCex (0, 0) = bgBlurCex (0, 0) ∧
    blurN 3 3 maskBlurCex 5 (fillImage bgBlurCex maskBlurCex 3 3) (0, 0) =
      bgBlurCex (0, 0) := by
  obtain ⟨h1, h2, h3⟩ :=
    c5_untouched_outside_blur_region bgBlurCex maskBlurCex 3 3 (0, 0)
  exact ⟨h1 (by decide), h2 bgBlurCex (by decide), h3 (by decide) 5⟩

/-! ## Mask edge jitter (`AeTimelineView.#applyMaskJitter`) -/

/-- The per-pixel displacement `randUnit` of `#applyMaskJitter`, given
the two `Math.random()` draws: `theta` (already scaled to `[0, 2π)`) and
`r` uniform in `[0, 1)`:
`(Math.round(cos(theta)·amount·r), Math.round(sin(theta)·amount·r))`.
The radius actually used is `amount · r`. -/
noncomputable def randUnit (amount θ u : ℝ) : ℤ × ℤ :=
  (round (Real.cos θ * amount * u), round (Real.sin θ * amount * u))

/-- The displacement as claim C8 states it, written from the spec's words
for comparison with `randUnit`: polar sampling with radius
`amount · √u`, which is the area-uniform disk sample. -/
noncomputable def claimRandUnit (amount θ u : ℝ) : ℤ × ℤ :=
  (round (Real.cos θ * amount * Real.sqrt u), round (Real.sin θ * amount * Real.sqrt u))

/-- `Math.min(n - 1, Math.max(0, v))`: clamping of a source coordinate to
the raster bounds. -/
def clampCoord (n : ℕ) (v : ℤ) : ℤ := min ((n : ℤ) - 1) (max 0 v)

/-- `#applyMaskJitter` on the mask raster: every output pixel copies all
four channels from the displaced, clamped source pixel; `rnd` supplies
the per-pixel random draws `(theta, r)`. -/
noncomputable def maskJitter (W H : ℕ) (src : Img) (rnd : ℤ × ℤ → ℝ × ℝ)
    (amount : ℝ) : Img := fun p =>
  src (clampCoord W (p.1 + (randUnit amount (rnd p).1 (rnd p).2).1),
       clampCoord H (p.2 + (randUnit amount (rnd p).1 (rnd p).2).2))

theorem clampCoord_bounds (n : ℕ) (hn : 0 < n) (v : ℤ) :
    0 ≤ clampCoord n v ∧ clampCoord n v < (n : ℤ) := by
  constructor
  · exact le_min (by omega) (le_max_left 0 v)
  · exact lt_of_le_of_lt (min_le_left _ _) (by omega)

/-- C8 (amended). Every output pixel of the mask jitter copies the source
mask pixel at `(x + dx, y + dy)` clamped to the raster bounds, where
`(dx, dy) = (round(cosθ·amount·r), round(sinθ·amount·r))` with radius
`amount·r` for the uniform draw `r` (not `amount·√r`); the clamped source
coordinate is always in bounds, and the operation is a pure function of
the mask raster alone. -/
theorem c8_jitter_copies_clamped (W H : ℕ) (hW : 0 < W) (hH : 0 < H) (src : Img)
    (rnd : ℤ × ℤ → ℝ × ℝ) (amount : ℝ) (p : ℤ × ℤ) :
    maskJitter W H src rnd amount p =
      src (clampCoord W (p.1 + (randUnit amount (rnd p).1 (rnd p).2).1),
           clampCoord H (p.2 + (randUnit amount (rnd p).1 (rnd p).2).2)) ∧
    inBounds W H
      (clampCoord W (p.1 + (randUnit amount (rnd p).1 (rnd p).2).1),
       clampCoord H (p.2 + (randUnit amount (rnd p).1 (rnd p).2).2)) := by
  refine ⟨rfl, ?_⟩
  obtain ⟨hx0, hx1⟩ := clampCoord_bounds W hW (p.1 + (randUnit amount (rnd p).1 (rnd p).2).1)
  obtain ⟨hy0, hy1⟩ := clampCoord_bounds H hH (p.2 + (randUnit amount (rnd p).1 (rnd p).2).2)
  exact ⟨hx0, hx1, hy0, hy1⟩

/-- Witness for C8 (amended): a 4×4 mask, draws `(theta, r) = (0, 1/4)`
and amount 10 at pixel `(0,0)`. -/
theorem c8_jitter_copies_clamped_witness :
    maskJitter 4 4 (fun q => if q = (3, 0) then ⟨255, 0, 0, 255⟩ else ⟨0, 0, 0, 255⟩)
      (fun _ => (0, 1/4)) 10 (0, 0) =
      (fun q => if q = (3, 0) then ⟨255, 0, 0, 255⟩ else ⟨0, 0, 0, 255⟩ : Img)
        (clampCoord 4 (0 + (randUnit 10 (0 : ℝ) (1/4 : ℝ)).1),
         clampCoord 4 (0 + (randUnit 10 (0 : ℝ) (1/4 : ℝ)).2)) ∧
    inBounds 4 4
      (clampCoord 4 (0 + (randUnit 10 (0 : ℝ) (1/4 : ℝ)).1),
       clampCoord 4 (0 + (randUnit 10 (0 : ℝ) (1/4 : ℝ)).2)) :=
  c8_jitter_copies_clamped 4 4 (by norm_num) (by norm_num)
    (fun q => if q = (3, 0) then ⟨255, 0, 0, 255⟩ else ⟨0, 0, 0, 255⟩)
    (fun _ => (0, 1/4)) 10 (0, 0)

/-- Counterexample for C8 as stated: with draws `theta = 0`, `u = 1/4`
and `amount = 10`, the code's displacement has radius `10·(1/4) = 2.5`
(rounding to `dx = 3`), while the claimed disk-uniform sampling
`radius = 10·√(1/4) = 5` would give `dx = 5`. -/
theorem c8_radius_counterexample :
    randUnit 10 0 (1/4) = (3, 0) ∧
    claimRandUnit 10 0 (1/4) = (5, 0) ∧
    randUnit 10 0 (1/4) ≠ claimRandUnit 10 0 (1/4) := by
  have hsqrt : Real.sqrt (1/4) = 1/2 := by
    rw [show (1/4 : ℝ) = (1/2) ^ 2 by norm_num,
      Real.sqrt_sq (by norm_num : (0 : ℝ) ≤ 1/2)]
  have hcode : randUnit 10 0 (1/4) = (3, 0) := by
    rw [randUnit, Real.cos_zero, Real.sin_zero]
    rw [Prod.ext_iff]
    constructor
    · show round ((1 : ℝ) * 10 * (1/4)) = 3
      norm_num [round_eq]
    · show round ((0 : ℝ) * 10 * (1/4)) = 0
      norm_num
  have hclaim : claimRandUnit 10 0 (1/4) = (5, 0) := by
    rw [claimRandUnit, Real.cos_zero, Real.sin_zero, hsqrt]
    rw [Prod.ext_iff]
    constructor
    · show round ((1 : ℝ) * 10 * (1/2)) = 5
      norm_num [round_eq]
    · show round ((0 : ℝ) * 10 * (1/2)) = 0
      norm_num
  refine ⟨hcode, hclaim, ?_⟩
  rw [hcode, hclaim]
  intro hcon
  exact absurd (congrArg Prod.fst hcon) (by norm_num)

end AETimeline
